import Mathlib

/-!
Verification of the A* solver for the Farmer/Wolf/Duck/Corn puzzle
(`fwdc.cpp`).  The C++ program is embedded shallowly: the game state is a
structure of four booleans, problem-space-graph nodes live in an arena
(a list indexed by allocation order, standing in for heap pointers), and
the `std::multimap` frontier is a key-sorted list with stable insertion
order among equal keys.  The recursive cost-revision routine
`PSNode::updateCostCond` is modelled with explicit fuel (the C++
recursion has no structural measure); fuel exhaustion surfaces as
`none`, so a `some` result certifies that the recursion terminated.
-/

/-- Farmer Wolf Duck and Corn game state (`class FWDCstate`): which bank
each participant is on (`true` = left bank). -/
structure FWDCstate where
  FL : Bool
  WL : Bool
  DL : Bool
  CL : Bool
deriving DecidableEq, Repr

/-- Method `FWDCstate::isWinning`: everyone is on the left bank. -/
def FWDCstate.isWinning (s : FWDCstate) : Bool :=
  s.FL && s.WL && s.DL && s.CL

/-- Method `FWDCstate::h`: the heuristic.  In the source the `(int)!FL` term is
commented out, so only wolf, duck and corn count. -/
def FWDCstate.h (s : FWDCstate) : Int :=
  (if s.WL then 0 else 1) + (if s.DL then 0 else 1) + (if s.CL then 0 else 1)

/-- Method `FWDCstate::canMoveFW`. -/
def FWDCstate.canMoveFW (s : FWDCstate) : Bool :=
  (s.FL == s.WL) && (s.DL != s.CL)

/-- Method `FWDCstate::canMoveFC`. -/
def FWDCstate.canMoveFC (s : FWDCstate) : Bool :=
  (s.FL == s.CL) && (s.WL != s.DL)

/-- Method `FWDCstate::canMoveF`. -/
def FWDCstate.canMoveF (s : FWDCstate) : Bool :=
  (s.DL != s.CL) && (s.WL != s.DL)

/-- Method `FWDCstate::canMoveFD`. -/
def FWDCstate.canMoveFD (s : FWDCstate) : Bool :=
  s.FL == s.DL

/-- Method `FWDCstate::nextStates`: the successor states, in the push order of
the source (FW, FD, FC, F). -/
def FWDCstate.nextStates (s : FWDCstate) : List FWDCstate :=
  (if s.canMoveFW then [FWDCstate.mk (!s.FL) (!s.WL) s.DL s.CL] else []) ++
  (if s.canMoveFD then [FWDCstate.mk (!s.FL) s.WL (!s.DL) s.CL] else []) ++
  (if s.canMoveFC then [FWDCstate.mk (!s.FL) s.WL s.DL (!s.CL)] else []) ++
  (if s.canMoveF then [FWDCstate.mk (!s.FL) s.WL s.DL s.CL] else [])

/-- The record `struct PSNode`: a problem-space-graph node.  Heap pointers become
arena indices (`Nat`), the null parent pointer becomes `none`. -/
structure PSNode where
  state : FWDCstate
  parent : Option Nat
  cost2reach : Int
  projectedCost : Int
  children : List Nat
deriving DecidableEq, Repr

/-- The `PSNode` constructor: cost 0 for the root, parent's cost + 1
otherwise; `projectedCost` is the state's heuristic; no children yet. -/
def PSNode.make (newstate : FWDCstate) (fromId : Option Nat)
    (fromNode : Option PSNode) : PSNode :=
  { state := newstate
    parent := fromId
    cost2reach :=
      match fromNode with
      | none => 0
      | some p => p.cost2reach + 1
    projectedCost := newstate.h
    children := [] }

/-- Arena lookup (dereferencing a node pointer). -/
def nth : List PSNode → Nat → Option PSNode
  | [], _ => none
  | n :: _, 0 => some n
  | _ :: rest, i + 1 => nth rest i

/-- Arena update (assignment through a node pointer); out-of-range
indices leave the arena unchanged. -/
def setNth : List PSNode → Nat → PSNode → List PSNode
  | [], _, _ => []
  | _ :: rest, 0, v => v :: rest
  | n :: rest, i + 1, v => n :: setNth rest i v

/-- Insertion into a `std::multimap`: the new pair goes after every entry with a
key `≤` its own (C++ `insert` places at the upper bound), keeping the
list key-sorted with stable order among equal keys. -/
def mmInsert (l : List (Int × Nat)) (k : Int) (v : Nat) : List (Int × Nat) :=
  match l with
  | [] => [(k, v)]
  | (k', v') :: t => if k < k' then (k, v) :: (k', v') :: t
                     else (k', v') :: mmInsert t k v

/-- The frontier manipulation inside `PSNode::updateCostCond`: scan the
bucket of entries keyed at the node's current `cost2reach` for this node;
when found, erase that entry and re-insert the node at `newkey`.  (The
frontier is actually keyed by f-values, so this bucket choice is part of
the embedded behaviour, faithful to lines 166-172 of the source.) -/
def frontierRekey (l : List (Int × Nat)) (oldkey : Int) (id : Nat)
    (newkey : Int) : List (Int × Nat) :=
  if (oldkey, id) ∈ l then mmInsert (l.erase (oldkey, id)) newkey id else l

/-- Method `PSNode::updateCostCond`, with its recursion flattened to a list of
sibling offers all carrying the same candidate cost and parent.  For
`t :: ts`: if `newcost < t.cost2reach` the node is re-keyed in the
frontier, its cost and parent are overwritten, its children are offered
`newcost + 1` with `t` as parent (depth-first, before the remaining
siblings `ts`), exactly as the C++ recursion does.  Fuel exhaustion
yields `none`. -/
def updateCostList : Nat → List PSNode → List (Int × Nat) → List Nat →
    Int → Option Nat → Option (List PSNode × List (Int × Nat))
  | _, arena, frontier, [], _, _ => some (arena, frontier)
  | 0, _, _, _ :: _, _, _ => none
  | Nat.succ fuel, arena, frontier, t :: ts, newcost, newparent =>
    match nth arena t with
    | none => none
    | some node =>
      if newcost < node.cost2reach then
        let frontier1 := frontierRekey frontier node.cost2reach t
          (newcost + node.projectedCost)
        let arena1 := setNth arena t
          { node with cost2reach := newcost, parent := newparent }
        match updateCostList fuel arena1 frontier1 node.children
            (newcost + 1) (some t) with
        | none => none
        | some (arena2, frontier2) =>
          updateCostList fuel arena2 frontier2 ts newcost newparent
      else
        updateCostList fuel arena frontier ts newcost newparent

/-- Top-level entry of `PSNode::updateCostCond`: the boolean result is
whether the offer was accepted, i.e. `newcost < cost2reach` read at
entry. -/
def updateCostCond (fuel : Nat) (arena : List PSNode)
    (frontier : List (Int × Nat)) (target : Nat) (newcost : Int)
    (newparent : Option Nat) :
    Option (Bool × List PSNode × List (Int × Nat)) :=
  match nth arena target with
  | none => none
  | some node =>
    match updateCostList fuel arena frontier [target] newcost newparent with
    | none => none
    | some (a, fr) => some (decide (newcost < node.cost2reach), a, fr)

/-- The driver's mutable state: node arena (allocation order), the
`generated` map (association list in insertion order), the frontier
multimap, and the `winningNode` pointer. -/
structure SearchState where
  arena : List PSNode
  generated : List (FWDCstate × Nat)
  frontier : List (Int × Nat)
  winningNode : Option Nat
deriving DecidableEq, Repr

/-- Lookup in the `generated` map. -/
def genLookup (g : List (FWDCstate × Nat)) (s : FWDCstate) : Option Nat :=
  (g.find? (fun p => decide (p.1 = s))).map (fun p => p.2)

/-- The body of the driver's inner `for` loop over the successor states
of the node `tempId` just popped from the frontier (lines 229-259 of the
source).  The loop condition re-checks `winningNode` before every
iteration; a successor equal to the popped node's own state is skipped;
already-generated states are offered a relaxation, fresh states become
new nodes inserted into the table and the frontier (keyed `g + h`); the
winning test runs only in the fresh-node branch; in both branches the
successor's node is appended to the popped node's children. -/
def processChildren : SearchState → Nat → List FWDCstate → Option SearchState
  | st, _, [] => some st
  | st, tempId, S :: rest =>
    if st.winningNode.isSome then some st
    else
      match nth st.arena tempId with
      | none => none
      | some tempNode =>
        if S ≠ tempNode.state then
          match genLookup st.generated S with
          | some cid =>
            match updateCostCond 1000 st.arena st.frontier cid
                (tempNode.cost2reach + 1) (some tempId) with
            | none => none
            | some (_, arena1, frontier1) =>
              match nth arena1 tempId with
              | none => none
              | some tnode1 =>
                let arena2 := setNth arena1 tempId
                  { tnode1 with children := tnode1.children ++ [cid] }
                processChildren
                  { st with arena := arena2, frontier := frontier1 }
                  tempId rest
          | none =>
            let nid := st.arena.length
            let node := PSNode.make S (some tempId) (some tempNode)
            let arena1 := st.arena ++ [node]
            let generated1 := st.generated ++ [(S, nid)]
            let frontier1 := mmInsert st.frontier
              (node.cost2reach + node.projectedCost) nid
            let winning1 := if S.isWinning then some nid else st.winningNode
            match nth arena1 tempId with
            | none => none
            | some tnode1 =>
              let arena2 := setNth arena1 tempId
                { tnode1 with children := tnode1.children ++ [nid] }
              processChildren
                { arena := arena2, generated := generated1,
                  frontier := frontier1, winningNode := winning1 }
                tempId rest
        else
          processChildren st tempId rest

/-- One iteration of the driver's `while` loop: when no winner is known
and the frontier is non-empty, pop the front entry and expand it;
otherwise the loop has terminated and the state is returned unchanged. -/
def searchStep (st : SearchState) : Option SearchState :=
  if st.winningNode.isNone ∧ st.frontier ≠ [] then
    match st.frontier with
    | [] => none
    | (_, tempId) :: rest =>
      match nth st.arena tempId with
      | none => none
      | some tempNode =>
        processChildren { st with frontier := rest } tempId
          tempNode.state.nextStates
  else
    some st

/-- The start state: everything on the right bank. -/
def startState : FWDCstate := ⟨false, false, false, false⟩

/-- The state the driver begins with (lines 201-207): the root node for
the start state, registered in `generated`, and inserted into the
frontier with the hard-coded key `1` from line 207 of the source. -/
def initState : SearchState :=
  let node0 := PSNode.make startState none none
  { arena := [node0]
    generated := [(startState, 0)]
    frontier := [(1, 0)]
    winningNode := none }

/-- Run `fuel` iterations of the driver loop from the initial state. -/
def searchRun : Nat → Option SearchState
  | 0 => some initState
  | Nat.succ f => (searchRun f).bind searchStep

/-- The goal state: everyone on the left bank. -/
def goalState : FWDCstate := ⟨true, true, true, true⟩

/-- The state the driver has reached when its `while` loop exits (checked
against `searchRun` below): ten generated nodes, the winning node is
node 9 with `cost2reach = 7`. -/
def finalState : SearchState :=
  { arena :=
      [ ⟨⟨false, false, false, false⟩, none, 0, 3, [1]⟩
      , ⟨⟨true, false, true, false⟩, some 0, 1, 2, [0, 2]⟩
      , ⟨⟨false, false, true, false⟩, some 1, 2, 2, [3, 4, 1]⟩
      , ⟨⟨true, true, true, false⟩, some 2, 3, 1, [2, 5]⟩
      , ⟨⟨true, false, true, true⟩, some 2, 3, 1, [6, 2]⟩
      , ⟨⟨false, true, false, false⟩, some 3, 4, 2, [3, 7]⟩
      , ⟨⟨false, false, false, true⟩, some 4, 4, 2, [7, 4]⟩
      , ⟨⟨true, true, false, true⟩, some 5, 5, 1, [6, 5, 8]⟩
      , ⟨⟨false, true, false, true⟩, some 7, 6, 1, [9]⟩
      , ⟨⟨true, true, true, true⟩, some 8, 7, 0, []⟩ ]
    generated :=
      [ (⟨false, false, false, false⟩, 0), (⟨true, false, true, false⟩, 1)
      , (⟨false, false, true, false⟩, 2), (⟨true, true, true, false⟩, 3)
      , (⟨true, false, true, true⟩, 4), (⟨false, true, false, false⟩, 5)
      , (⟨false, false, false, true⟩, 6), (⟨true, true, false, true⟩, 7)
      , (⟨false, true, false, true⟩, 8), (⟨true, true, true, true⟩, 9) ]
    frontier := [(7, 9)]
    winningNode := some 9 }

/-- Follow `parent` links from a node (the path-reconstruction loop at
lines 265-269 of the source), collecting the visited node ids. -/
def followParents : Nat → List PSNode → Nat → List Nat
  | 0, _, i => [i]
  | f + 1, arena, i =>
    match nth arena i with
    | none => [i]
    | some node =>
      match node.parent with
      | none => [i]
      | some p => i :: followParents f arena p

/-- Check that along a list of node ids each node's state is a legal
successor (`nextStates`) of the following node's state. -/
def chainLegal (arena : List PSNode) : List Nat → Bool
  | [] => true
  | [_] => true
  | c :: p :: rest =>
    (match nth arena c, nth arena p with
     | some nc, some np => decide (nc.state ∈ np.state.nextStates)
     | _, _ => false) && chainLegal arena (p :: rest)

/-- A list of states is a legal move sequence from `s` when each state
is a `nextStates`-successor of the previous one. -/
def isPath : FWDCstate → List FWDCstate → Bool
  | _, [] => true
  | s, t :: rest => decide (t ∈ s.nextStates) && isPath t rest

/-- The state a move sequence from `s` ends in. -/
def lastState (s : FWDCstate) (moves : List FWDCstate) : FWDCstate :=
  moves.getLastD s

/-- Modelled from the spec: the set of states reachable from `s` in at
most `n` legal moves ("true remaining cost" is phrased through this). -/
def reach (s : FWDCstate) : Nat → List FWDCstate
  | 0 => [s]
  | n + 1 =>
    ((reach s n) ++ (reach s n).flatMap FWDCstate.nextStates).dedup

/-- The states wrapped by the nodes of an arena, in allocation order. -/
def statesOf (a : List PSNode) : List FWDCstate := a.map PSNode.state

/-- The association list that `generated` must equal when every node is
registered under its own state at its allocation index. -/
def enumGen : List PSNode → Nat → List (FWDCstate × Nat)
  | [], _ => []
  | n :: rest, k => (n.state, k) :: enumGen rest (k + 1)

/-- The one-node-per-state invariant of the generated table: the table
maps exactly the arena's states to their indices, its keys are distinct,
and no two arena nodes wrap equal states. -/
def genInv : Option SearchState → Prop
  | none => True
  | some st =>
    st.generated = enumGen st.arena 0 ∧
    (st.generated.map Prod.fst).Nodup ∧
    (statesOf st.arena).Nodup

/-- How many of wolf, duck and corn change banks between two states. -/
def movedItems (s r : FWDCstate) : Nat :=
  (if s.WL ≠ r.WL then 1 else 0) + (if s.DL ≠ r.DL then 1 else 0) +
  (if s.CL ≠ r.CL then 1 else 0)

/-- Modelled from the spec: the duck is never on a bank with the wolf or
with the corn unless the farmer is also there. -/
def safeState (r : FWDCstate) : Prop :=
  (r.DL = r.WL → r.FL = r.DL) ∧ (r.DL = r.CL → r.FL = r.DL)

/-- Modelled from the spec: a single legal transition — the farmer's
bank flips, at most one item moves with the farmer, any moved item
shared the farmer's bank, and the resulting state is safe. -/
def legalTransition (s r : FWDCstate) : Prop :=
  r.FL = !s.FL ∧ movedItems s r ≤ 1 ∧
  (s.WL ≠ r.WL → s.WL = s.FL) ∧ (s.DL ≠ r.DL → s.DL = s.FL) ∧
  (s.CL ≠ r.CL → s.CL = s.FL) ∧ safeState r

instance (r : FWDCstate) : Decidable (safeState r) := by
  unfold safeState; infer_instance

instance (s r : FWDCstate) : Decidable (legalTransition s r) := by
  unfold legalTransition; infer_instance

/-- The winning path the program prints, as a move sequence. -/
def path7 : List FWDCstate :=
  [ ⟨true, false, true, false⟩, ⟨false, false, true, false⟩
  , ⟨true, true, true, false⟩, ⟨false, true, false, false⟩
  , ⟨true, true, false, true⟩, ⟨false, true, false, true⟩
  , ⟨true, true, true, true⟩ ]

/-- The node used to exercise `updateCostCond` on a concrete input. -/
def cNode : PSNode := ⟨⟨false, false, false, false⟩, none, 5, 2, []⟩

/-- Node `cNode` after accepting the candidate cost `3` with parent `1`. -/
def cNode' : PSNode := ⟨⟨false, false, false, false⟩, some 1, 3, 2, []⟩

theorem nth_setNth_ne : ∀ (arena : List PSNode) (i j : Nat) (v : PSNode),
    i ≠ j → nth (setNth arena i v) j = nth arena j := by
  intro arena
  induction arena with
  | nil => intro i j v _; rfl
  | cons a rest ih =>
    intro i j v hij
    cases i with
    | zero =>
      cases j with
      | zero => exact absurd rfl hij
      | succ j => rfl
    | succ i =>
      cases j with
      | zero => rfl
      | succ j => exact ih i j v (fun hh => hij (by rw [hh]))

theorem nth_setNth_self : ∀ (arena : List PSNode) (i : Nat) (v w : PSNode),
    nth arena i = some w → nth (setNth arena i v) i = some v := by
  intro arena
  induction arena with
  | nil => intro i v w hw; cases i <;> simp [nth] at hw
  | cons a rest ih =>
    intro i v w hw
    cases i with
    | zero => rfl
    | succ i => exact ih i v w hw

theorem statesOf_setNth : ∀ (arena : List PSNode) (i : Nat) (v w : PSNode),
    nth arena i = some w → v.state = w.state →
    statesOf (setNth arena i v) = statesOf arena := by
  intro arena
  induction arena with
  | nil => intro i v w hw _; cases i <;> simp [nth] at hw
  | cons a rest ih =>
    intro i v w hw hs
    cases i with
    | zero =>
      have haw : a = w := by simpa [nth] using hw
      simp [setNth, statesOf, hs, haw]
    | succ i =>
      have := ih i v w hw hs
      simpa [statesOf, setNth] using this

theorem updateCostList_states : ∀ (fuel : Nat) (ts : List Nat) (c : Int)
    (p : Option Nat) (arena : List PSNode) (frontier : List (Int × Nat))
    (arena' : List PSNode) (frontier' : List (Int × Nat)),
    updateCostList fuel arena frontier ts c p = some (arena', frontier') →
    statesOf arena' = statesOf arena := by
  intro fuel
  induction fuel with
  | zero =>
    intro ts c p arena frontier arena' frontier' hh
    cases ts with
    | nil => simp [updateCostList] at hh; rw [← hh.1]
    | cons t ts => simp [updateCostList] at hh
  | succ f ih =>
    intro ts c p arena frontier arena' frontier' hh
    cases ts with
    | nil => simp [updateCostList] at hh; rw [← hh.1]
    | cons t ts =>
      simp only [updateCostList] at hh
      split at hh
      · exact absurd hh (by simp)
      · rename_i node hnt
        split at hh
        · rename_i hlt
          split at hh
          · exact absurd hh (by simp)
          · rename_i arena2 frontier2 hrec
            have h2 := ih ts c p arena2 frontier2 arena' frontier' hh
            have h1 := ih node.children (c + 1) (some t) _ _ arena2 frontier2 hrec
            rw [h2, h1]
            exact statesOf_setNth arena t _ node hnt rfl
        · rename_i hlt
          exact ih ts c p arena frontier arena' frontier' hh

theorem updateCostList_untouched : ∀ (fuel : Nat) (ts : List Nat) (c : Int)
    (p : Option Nat) (arena : List PSNode) (frontier : List (Int × Nat))
    (arena' : List PSNode) (frontier' : List (Int × Nat)) (n : Nat)
    (nodeN : PSNode),
    nth arena n = some nodeN → nodeN.cost2reach ≤ c →
    updateCostList fuel arena frontier ts c p = some (arena', frontier') →
    nth arena' n = some nodeN := by
  intro fuel
  induction fuel with
  | zero =>
    intro ts c p arena frontier arena' frontier' n nodeN hn hc hh
    cases ts with
    | nil => simp [updateCostList] at hh; rw [← hh.1]; exact hn
    | cons t ts => simp [updateCostList] at hh
  | succ f ih =>
    intro ts c p arena frontier arena' frontier' n nodeN hn hc hh
    cases ts with
    | nil => simp [updateCostList] at hh; rw [← hh.1]; exact hn
    | cons t ts =>
      simp only [updateCostList] at hh
      split at hh
      · exact absurd hh (by simp)
      · rename_i node hnt
        split at hh
        · rename_i hlt
          split at hh
          · exact absurd hh (by simp)
          · rename_i arena2 frontier2 hrec
            by_cases htn : t = n
            · subst htn
              rw [hnt] at hn
              injection hn with hn
              rw [hn] at hlt
              exact absurd hlt (not_lt.mpr hc)
            · have hn1 : nth (setNth arena t
                  { node with cost2reach := c, parent := p }) n = some nodeN := by
                rw [nth_setNth_ne arena t n _ htn]; exact hn
              have hn2 := ih node.children (c + 1) (some t) _ _ arena2 frontier2
                n nodeN hn1 (by omega) hrec
              exact ih ts c p arena2 frontier2 arena' frontier' n nodeN hn2 hc hh
        · rename_i hlt
          exact ih ts c p arena frontier arena' frontier' n nodeN hn hc hh

theorem updateCostCond_states (fuel : Nat) (arena : List PSNode)
    (frontier : List (Int × Nat)) (target : Nat) (newcost : Int)
    (newparent : Option Nat) (b : Bool) (arena' : List PSNode)
    (frontier' : List (Int × Nat))
    (hh : updateCostCond fuel arena frontier target newcost newparent
      = some (b, arena', frontier')) :
    statesOf arena' = statesOf arena := by
  unfold updateCostCond at hh
  split at hh
  · exact absurd hh (by simp)
  · rename_i node hnt
    split at hh
    · exact absurd hh (by simp)
    · rename_i a fr hrec
      simp only [Option.some.injEq, Prod.mk.injEq] at hh
      rw [← hh.2.1]
      exact updateCostList_states fuel [target] newcost newparent arena frontier
        a fr hrec

/-- C3: `updateCostCond` accepts exactly when `newcost < cost2reach`; on
rejection it returns `false` leaving the arena and frontier (hence the
node and all its descendants) unchanged; on acceptance it returns `true`,
the node ends with `cost2reach = newcost` and `parent = newparent`, and
the rest of the run is exactly the recursive offer of `newcost + 1`, with
this node as parent, to every node in its children list. -/
theorem updateCostCond_contract (fuel : Nat) (arena : List PSNode)
    (frontier : List (Int × Nat)) (target : Nat) (newcost : Int)
    (newparent : Option Nat) (node : PSNode)
    (hget : nth arena target = some node) :
    (¬ newcost < node.cost2reach →
      updateCostCond (fuel + 1) arena frontier target newcost newparent
        = some (false, arena, frontier)) ∧
    (newcost < node.cost2reach →
      ∀ (b : Bool) (arena' : List PSNode) (frontier' : List (Int × Nat)),
        updateCostCond (fuel + 1) arena frontier target newcost newparent
          = some (b, arena', frontier') →
        b = true ∧
        nth arena' target
          = some { node with cost2reach := newcost, parent := newparent } ∧
        updateCostList fuel
          (setNth arena target
            { node with cost2reach := newcost, parent := newparent })
          (frontierRekey frontier node.cost2reach target
            (newcost + node.projectedCost))
          node.children (newcost + 1) (some target)
          = some (arena', frontier')) := by
  constructor
  · intro hnl
    simp only [updateCostCond, updateCostList, hget, if_neg hnl]
    rw [decide_eq_false hnl]
  · intro hlt b arena' frontier' hh
    simp only [updateCostCond, updateCostList, hget, if_pos hlt] at hh
    split at hh
    · exact absurd hh (by simp)
    · rename_i a fr hma
      split at hma
      · exact absurd hma (by simp)
      · rename_i arena2 frontier2 hrec
        simp only [Option.some.injEq, Prod.mk.injEq] at hma hh
        obtain ⟨ha2, hf2⟩ := hma
        obtain ⟨hb, ha, hf⟩ := hh
        refine ⟨by rw [← hb, decide_eq_true hlt], ?_, ?_⟩
        · have hu := updateCostList_untouched fuel node.children (newcost + 1)
            (some target) _ _ arena2 frontier2 target _
            (nth_setNth_self arena target _ node hget)
            (by show newcost ≤ newcost + 1; omega) hrec
          rw [ha2, ha] at hu
          exact hu
        · rw [ha2, ha, hf2, hf] at hrec
          exact hrec

/-- Witness for `updateCostCond_contract`: the contract applied to a
concrete one-node arena with `cost2reach = 5` and candidate cost `3`. -/
theorem updateCostCond_contract_inst :
    (3 : Int) < 5 ∧ nth [cNode'] 0 = some cNode' := by
  have hcc := (updateCostCond_contract 9 [cNode] [] 0 3 (some 1) cNode rfl).2
    (by decide) true [cNode'] [] (by decide)
  exact ⟨by decide, hcc.2.1⟩

/-- C1: the run from the given start (everything on the right bank)
terminates with a winning node whose state has all four on the left bank
and whose `cost2reach` is `7`; and `7` is optimal, since the goal state
is reachable in `7` moves but not in `6`. -/
theorem scenario1_min_path :
    searchRun 20 = some finalState ∧
    finalState.winningNode = some 9 ∧
    (nth finalState.arena 9).map PSNode.state = some goalState ∧
    (nth finalState.arena 9).map PSNode.cost2reach = some 7 ∧
    goalState ∉ reach startState 6 ∧ goalState ∈ reach startState 7 := by
  decide

/-- C2 is violated by the code: the start node is inserted into the
frontier with the hard-coded key `1` although `costToReach + heuristic`
is `0 + 3 = 3`; and an accepted relaxation of a node whose frontier
entry is keyed at its f-value `5 + 2 = 7` leaves that entry untouched
(the source scans the bucket keyed `cost2reach`, i.e. `5`, where the
node is not stored), instead of re-keying it at `3 + 2 = 5`. -/
theorem frontier_priority_violation :
    initState.frontier = [(1, 0)] ∧
    (nth initState.arena 0).map (fun n => n.cost2reach + n.projectedCost)
      = some 3 ∧
    (1 : Int) ≠ 3 ∧
    updateCostCond 10 [cNode] [(7, 0)] 0 3 none
      = some (true, [⟨⟨false, false, false, false⟩, none, 3, 2, []⟩], [(7, 0)]) := by
  decide

/-- C4: following parent links from the winning node of the run reaches
the start node (parent `none`) in exactly `cost2reach = 7` steps, and
each consecutive pair on the chain is a legal `nextStates` transition. -/
theorem winning_path_reconstruction :
    searchRun 20 = some finalState ∧
    finalState.winningNode = some 9 ∧
    followParents 20 finalState.arena 9 = [9, 8, 7, 5, 3, 2, 1, 0] ∧
    (nth finalState.arena 9).map PSNode.cost2reach = some 7 ∧
    ([9, 8, 7, 5, 3, 2, 1, 0] : List Nat).length = 7 + 1 ∧
    chainLegal finalState.arena [9, 8, 7, 5, 3, 2, 1, 0] = true ∧
    (nth finalState.arena 0).map PSNode.parent = some none ∧
    (nth finalState.arena 0).map PSNode.state = some startState := by
  decide

/-- C5: every successor produced by `nextStates` is a single legal
transition: the farmer's bank flips, at most one item moves with the
farmer, any moved item shared the farmer's bank, and the resulting state
never leaves the duck with the wolf or the corn unsupervised. -/
theorem nextStates_legal :
    ∀ (F W D C F' W' D' C' : Bool),
      FWDCstate.mk F' W' D' C' ∈ (FWDCstate.mk F W D C).nextStates →
      legalTransition ⟨F, W, D, C⟩ ⟨F', W', D', C'⟩ := by
  decide

/-- Witness for `nextStates_legal` at the program's first move. -/
theorem nextStates_legal_inst :
    FWDCstate.mk true false true false ∈ FWDCstate.nextStates startState ∧
    legalTransition startState ⟨true, false, true, false⟩ :=
  ⟨by decide,
    nextStates_legal false false false false true false true false (by decide)⟩

/-- C7 is violated by the code: when node 1 (state `[FD||WC]`, parent
node 0 = the start state) is expanded, the successor equal to its
parent's state passes the filter of line 230 (which compares against the
node's own state, not the parent's): it is offered a relaxation and
appended to node 1's children list, which ends as `[0, 2]`. -/
theorem parent_filter_noop_violation :
    searchRun 20 = some finalState ∧
    (nth finalState.arena 1).map PSNode.parent = some (some 0) ∧
    (nth finalState.arena 0).map PSNode.state = some startState ∧
    (nth finalState.arena 1).map PSNode.children = some [0, 2] ∧
    (nth finalState.arena 1).map
        (fun n => decide (startState ∈ n.state.nextStates) &&
          decide (startState ≠ n.state))
      = some true := by
  decide

/-- C9: the search terminates: 20 units of loop fuel (and 1000 units of
relaxation fuel per offer) already complete the run, larger fuel gives
the same final state, and that state is a fixed point of the loop body
with the winning node found. -/
theorem search_terminates :
    searchRun 100 = some finalState ∧
    searchStep finalState = some finalState ∧
    finalState.winningNode = some 9 := by
  decide

/-- C10: no successor of a state equals that state (every move flips the
farmer's bank), so the driver's filter, which compares successors to the
expanded node's own state, never excludes anything; and every move is
reversible, so the parent's state always reappears among the successors. -/
theorem moves_flip_farmer_and_reverse :
    ∀ (F W D C F' W' D' C' : Bool),
      FWDCstate.mk F' W' D' C' ∈ (FWDCstate.mk F W D C).nextStates →
      FWDCstate.mk F' W' D' C' ≠ FWDCstate.mk F W D C ∧
      F' = !F ∧
      FWDCstate.mk F W D C ∈ (FWDCstate.mk F' W' D' C').nextStates := by
  decide

/-- Witness for `moves_flip_farmer_and_reverse` at the first move of the
run. -/
theorem moves_flip_farmer_and_reverse_inst :
    FWDCstate.mk true false true false ∈ FWDCstate.nextStates startState ∧
    (FWDCstate.mk true false true false ≠ startState ∧ true = !false ∧
      startState ∈ FWDCstate.nextStates ⟨true, false, true, false⟩) :=
  ⟨by decide,
    moves_flip_farmer_and_reverse false false false false true false true false
      (by decide)⟩

theorem h_goal_zero : ∀ F W D C : Bool,
    (FWDCstate.mk F W D C).isWinning = true →
    FWDCstate.h ⟨F, W, D, C⟩ = 0 := by
  decide

theorem h_step : ∀ F W D C F' W' D' C' : Bool,
    FWDCstate.mk F' W' D' C' ∈ (FWDCstate.mk F W D C).nextStates →
    FWDCstate.h ⟨F, W, D, C⟩ ≤ FWDCstate.h ⟨F', W', D', C'⟩ + 1 := by
  decide

/-- C6: the heuristic is a non-negative integer and admissible: any
legal move sequence from `s` that ends in the goal has length at least
`h s` (each move changes at most one of wolf/duck/corn's banks, and the
goal has heuristic `0`). -/
theorem heuristic_admissible :
    (∀ s : FWDCstate, 0 ≤ s.h) ∧
    (∀ (s : FWDCstate) (moves : List FWDCstate),
      isPath s moves = true → (lastState s moves).isWinning = true →
      s.h ≤ (moves.length : Int)) := by
  constructor
  · intro s; obtain ⟨a, b, c, d⟩ := s; revert a b c d; decide
  · intro s moves
    induction moves generalizing s with
    | nil =>
      intro _ hw
      obtain ⟨a, b, c, d⟩ := s
      rw [h_goal_zero a b c d hw]
      simp
    | cons t rest ih =>
      intro hp hw
      rw [isPath, Bool.and_eq_true] at hp
      obtain ⟨hmem, hrest⟩ := hp
      have hmem' : t ∈ s.nextStates := of_decide_eq_true hmem
      have hw' : (lastState t rest).isWinning = true := by
        rw [lastState] at hw ⊢
        rwa [List.getLastD_cons] at hw
      have hstep : s.h ≤ t.h + 1 := by
        obtain ⟨a, b, c, d⟩ := s
        obtain ⟨a', b', c', d'⟩ := t
        exact h_step a b c d a' b' c' d' hmem'
      have hrec := ih t hrest hw'
      simp only [List.length_cons]
      push_cast
      omega

/-- Witness for `heuristic_admissible` on the program's winning path. -/
theorem heuristic_admissible_inst :
    isPath startState path7 = true ∧
    FWDCstate.h startState ≤ (path7.length : Int) :=
  ⟨by decide, heuristic_admissible.2 startState path7 (by decide) (by decide)⟩

theorem mem_reach_succ {s a : FWDCstate} {n : Nat} (hm : a ∈ reach s n) :
    a ∈ reach s (n + 1) := by
  rw [reach]
  exact List.mem_dedup.mpr (List.mem_append_left _ hm)

theorem mem_reach_step {s a b : FWDCstate} {n : Nat} (ha : a ∈ reach s n)
    (hb : b ∈ a.nextStates) : b ∈ reach s (n + 1) := by
  rw [reach]
  exact List.mem_dedup.mpr
    (List.mem_append_right _ (List.mem_flatMap.mpr ⟨a, ha, hb⟩))

theorem reach_mono {s : FWDCstate} {m n : Nat} (hmn : m ≤ n)
    {a : FWDCstate} (hm : a ∈ reach s m) : a ∈ reach s n := by
  induction hmn with
  | refl => exact hm
  | step _ ih => exact mem_reach_succ ih

theorem path_reachable : ∀ (moves : List FWDCstate) (s a : FWDCstate)
    (n : Nat), a ∈ reach s n → isPath a moves = true →
    lastState a moves ∈ reach s (n + moves.length) := by
  intro moves
  induction moves with
  | nil => intro s a n ha _; simpa [lastState] using ha
  | cons t rest ih =>
    intro s a n ha hp
    rw [isPath, Bool.and_eq_true] at hp
    obtain ⟨hmem, hrest⟩ := hp
    have ht : t ∈ reach s (n + 1) :=
      mem_reach_step ha (of_decide_eq_true hmem)
    have := ih s t (n + 1) ht hrest
    rw [lastState, List.getLastD_cons]
    rw [show n + (t :: rest).length = n + 1 + rest.length by
      simp [List.length_cons]; omega]
    exact this

theorem winning_eq_goal : ∀ s : FWDCstate,
    s.isWinning = true → s = goalState := by
  intro s; obtain ⟨a, b, c, d⟩ := s; revert a b c d; decide

/-- No legal move sequence from the start reaches the goal in fewer than
7 moves (this is what makes the `cost2reach = 7` of the found node a
minimum, cf. `scenario1_min_path`). -/
theorem shortest_solution_length (moves : List FWDCstate)
    (hp : isPath startState moves = true)
    (hw : (lastState startState moves).isWinning = true) :
    7 ≤ moves.length := by
  by_contra hlt
  push_neg at hlt
  have h0 : startState ∈ reach startState 0 := by rw [reach]; exact List.mem_singleton.mpr rfl
  have hmem := path_reachable moves startState startState 0 h0 hp
  rw [winning_eq_goal _ hw] at hmem
  have hmem' : goalState ∈ reach startState moves.length := by
    simpa using hmem
  have h6 : goalState ∈ reach startState 6 :=
    reach_mono (show moves.length ≤ 6 by omega) hmem'
  exact absurd h6 (by decide)

theorem enumGen_map_fst : ∀ (a : List PSNode) (k : Nat),
    (enumGen a k).map Prod.fst = statesOf a := by
  intro a
  induction a with
  | nil => intro k; rfl
  | cons n rest ih =>
    intro k
    simp only [enumGen, statesOf, List.map_cons]
    rw [show (enumGen rest (k + 1)).map Prod.fst = statesOf rest from ih (k + 1)]
    rfl

theorem enumGen_append_one : ∀ (a : List PSNode) (n : PSNode) (k : Nat),
    enumGen (a ++ [n]) k = enumGen a k ++ [(n.state, k + a.length)] := by
  intro a
  induction a with
  | nil => intro n k; simp [enumGen]
  | cons m rest ih =>
    intro n k
    show enumGen (m :: (rest ++ [n])) k
      = enumGen (m :: rest) k ++ [(n.state, k + (m :: rest).length)]
    rw [enumGen, enumGen, ih n (k + 1), List.length_cons]
    rw [show k + 1 + rest.length = k + (rest.length + 1) by omega]
    rfl

theorem enumGen_eq_of_states : ∀ (a b : List PSNode) (k : Nat),
    statesOf a = statesOf b → enumGen a k = enumGen b k := by
  intro a
  induction a with
  | nil =>
    intro b k hab
    cases b with
    | nil => rfl
    | cons m' rest' => simp [statesOf] at hab
  | cons m rest ih =>
    intro b k hab
    cases b with
    | nil => simp [statesOf] at hab
    | cons m' rest' =>
      simp only [statesOf, List.map_cons, List.cons.injEq] at hab
      obtain ⟨hm, hr⟩ := hab
      simp only [enumGen, hm]
      rw [ih rest' (k + 1) hr]

theorem genLookup_not_mem (g : List (FWDCstate × Nat)) (S : FWDCstate)
    (hl : genLookup g S = none) : S ∉ g.map Prod.fst := by
  intro hmem
  obtain ⟨p, hp, hps⟩ := List.mem_map.mp hmem
  unfold genLookup at hl
  cases hf : List.find? (fun q => decide (q.1 = S)) g with
  | some q => rw [hf] at hl; simp at hl
  | none =>
    have hnp := List.find?_eq_none.mp hf p hp
    simp [hps] at hnp

theorem nodup_append_single {l : List FWDCstate} {x : FWDCstate}
    (hl : l.Nodup) (hx : x ∉ l) : (l ++ [x]).Nodup := by
  rw [List.nodup_append]
  refine ⟨hl, List.nodup_singleton x, ?_⟩
  intro a ha hb
  rw [List.mem_singleton] at hb
  rw [hb] at ha
  exact hx ha

theorem processChildren_inv : ∀ (children : List FWDCstate)
    (st : SearchState) (tempId : Nat) (st' : SearchState),
    processChildren st tempId children = some st' →
    st.generated = enumGen st.arena 0 → (statesOf st.arena).Nodup →
    st'.generated = enumGen st'.arena 0 ∧ (statesOf st'.arena).Nodup := by
  intro children
  induction children with
  | nil =>
    intro st tempId st' hps h1 h2
    simp only [processChildren, Option.some.injEq] at hps
    rw [← hps]
    exact ⟨h1, h2⟩
  | cons S rest ih =>
    intro st tempId st' hps h1 h2
    simp only [processChildren] at hps
    split at hps
    · simp only [Option.some.injEq] at hps
      rw [← hps]; exact ⟨h1, h2⟩
    · split at hps
      · exact absurd hps (by simp)
      · rename_i tempNode htmp
        split at hps
        · split at hps
          · rename_i cid hlook
            split at hps
            · exact absurd hps (by simp)
            · rename_i b arena1 frontier1 hupd
              split at hps
              · exact absurd hps (by simp)
              · rename_i tnode1 htn1
                have hstates1 : statesOf arena1 = statesOf st.arena :=
                  updateCostCond_states 1000 st.arena st.frontier cid _ _
                    b arena1 frontier1 hupd
                have hstates2 : statesOf (setNth arena1 tempId
                    { tnode1 with children := tnode1.children ++ [cid] })
                    = statesOf st.arena := by
                  rw [statesOf_setNth arena1 tempId
                    { tnode1 with children := tnode1.children ++ [cid] }
                    tnode1 htn1 rfl, hstates1]
                refine ih _ tempId st' hps ?_ ?_
                · dsimp only
                  rw [enumGen_eq_of_states _ st.arena 0 hstates2]
                  exact h1
                · dsimp only
                  rw [hstates2]; exact h2
          · rename_i hlook
            split at hps
            · exact absurd hps (by simp)
            · rename_i tnode1 htn1
              have hSmem : S ∉ statesOf st.arena := by
                intro hmem
                refine genLookup_not_mem st.generated S hlook ?_
                rw [h1, enumGen_map_fst]
                exact hmem
              have happ : statesOf
                  (st.arena ++ [PSNode.make S (some tempId) (some tempNode)])
                  = statesOf st.arena ++ [S] := by
                simp [statesOf, PSNode.make]
              have hset : statesOf (setNth
                  (st.arena ++ [PSNode.make S (some tempId) (some tempNode)])
                  tempId
                  { tnode1 with children := tnode1.children ++ [st.arena.length] })
                  = statesOf st.arena ++ [S] := by
                rw [statesOf_setNth
                  (st.arena ++ [PSNode.make S (some tempId) (some tempNode)])
                  tempId
                  { tnode1 with children := tnode1.children ++ [st.arena.length] }
                  tnode1 htn1 rfl, happ]
              refine ih _ tempId st' hps ?_ ?_
              · dsimp only
                rw [enumGen_eq_of_states _
                  (st.arena ++ [PSNode.make S (some tempId) (some tempNode)]) 0
                  (by rw [hset, happ])]
                rw [enumGen_append_one, ← h1]
                simp [PSNode.make]
              · dsimp only
                rw [hset]
                exact nodup_append_single h2 hSmem
        · exact ih _ tempId st' hps h1 h2

theorem searchStep_inv (st st' : SearchState)
    (hs : searchStep st = some st')
    (h1 : st.generated = enumGen st.arena 0)
    (h2 : (statesOf st.arena).Nodup) :
    st'.generated = enumGen st'.arena 0 ∧ (statesOf st'.arena).Nodup := by
  unfold searchStep at hs
  split at hs
  · split at hs
    · exact absurd hs (by simp)
    · rename_i k tempId rest
      split at hs
      · exact absurd hs (by simp)
      · rename_i tempNode htmp
        exact processChildren_inv _ _ _ st' hs h1 h2
  · simp only [Option.some.injEq] at hs
    rw [← hs]
    exact ⟨h1, h2⟩

/-- C8: throughout the run the generated table holds exactly one node
per distinct generated state: at every number of elapsed loop
iterations, `generated` is precisely the arena's states paired with
their allocation indices, its keys are distinct, and no two arena nodes
wrap equal states. -/
theorem generated_unique_nodes : ∀ fuel : Nat, genInv (searchRun fuel) := by
  intro fuel
  induction fuel with
  | zero => exact ⟨by decide, by decide, by decide⟩
  | succ f ih =>
    rw [searchRun]
    cases hr : searchRun f with
    | none => trivial
    | some st =>
      rw [hr] at ih
      obtain ⟨h1, _, h3⟩ := ih
      show genInv (searchStep st)
      cases hs : searchStep st with
      | none => trivial
      | some st' =>
        have hinv := searchStep_inv st st' hs h1 h3
        exact ⟨hinv.1, by rw [hinv.1, enumGen_map_fst]; exact hinv.2, hinv.2⟩
